import Mathlib

/-!
Verification of the hut-graph construction pipeline of this repository
(`build_cabane_graph.py` and `filter_edges_max35.py`).

The shallow embedding below translates the Python source into Lean:

* Python `dict`s become association lists (`alookup` / `aupdate`), whose keys
  are unique in every state the programs produce (dicts cannot hold duplicate
  keys); where a proof needs this, it is an explicit `Nodup` hypothesis.
* Python `float` arithmetic on distances becomes exact rational arithmetic
  (`ℚ`): the claims under study are about the structure of the algorithms
  (which comparisons are made, against which table, in which order), not about
  rounding of IEEE operations.
* `heapq` becomes a bag of `(distance, node)` entries from which the
  lexicographically least element is popped (`popMin`), which is exactly the
  observable behaviour of a binary heap of tuples.
* the unbounded `while heap:` loop becomes a fuel-indexed recursion; the
  theorems about full runs hold for every sufficiently large fuel.
-/

/-! ## Association-list model of Python dicts -/

/-- Lookup in an association list; `alookup d k` models `d.get(k)`. -/
def alookup {α β : Type} [DecidableEq α] : List (α × β) → α → Option β
  | [], _ => none
  | e :: rest, k => if k = e.1 then some e.2 else alookup rest k

/-- Update-or-append; `aupdate d k v` models `d[k] = v` (insertion order is
kept: an existing key is overwritten in place, a new key is appended). -/
def aupdate {α β : Type} [DecidableEq α] : List (α × β) → α → β → List (α × β)
  | [], k, v => [(k, v)]
  | e :: rest, k, v => if k = e.1 then (k, v) :: rest else e :: aupdate rest k v

theorem alookup_mem {α β : Type} [DecidableEq α] {l : List (α × β)} {k : α} {v : β}
    (h : alookup l k = some v) : (k, v) ∈ l := by
  induction l with
  | nil => simp [alookup] at h
  | cons e rest ih =>
    by_cases hk : k = e.1
    · subst hk
      simp [alookup] at h
      subst h
      exact List.mem_cons_self _ _
    · simp [alookup, hk] at h
      exact List.mem_cons_of_mem _ (ih h)

theorem alookup_eq_none_iff {α β : Type} [DecidableEq α] {l : List (α × β)} {k : α} :
    alookup l k = none ↔ ∀ v, (k, v) ∉ l := by
  induction l with
  | nil => simp [alookup]
  | cons e rest ih =>
    by_cases hk : k = e.1
    · subst hk
      constructor
      · intro h
        simp [alookup] at h
      · intro h
        exfalso
        have hne := h e.2
        rw [Prod.mk.eta] at hne
        exact hne (List.mem_cons_self e rest)
    · simp [alookup, hk, ih]
      constructor
      · intro h v
        refine ⟨fun he => ?_, h v⟩
        rw [← he] at hk
        exact hk rfl
      · intro h v
        exact fun hm => (h v).2 hm

theorem alookup_of_mem_nodup {α β : Type} [DecidableEq α] {l : List (α × β)} {k : α} {v : β}
    (hnd : (l.map Prod.fst).Nodup) (hm : (k, v) ∈ l) : alookup l k = some v := by
  induction l with
  | nil => simp at hm
  | cons e rest ih =>
    simp only [List.map_cons, List.nodup_cons] at hnd
    rcases List.mem_cons.mp hm with h | h
    · rw [← h]
      simp [alookup]
    · have hk : k ≠ e.1 := by
        intro he
        apply hnd.1
        rw [← he]
        exact List.mem_map.mpr ⟨(k, v), h, rfl⟩
      simp [alookup, hk]
      exact ih hnd.2 h

theorem alookup_aupdate_self {α β : Type} [DecidableEq α] (l : List (α × β)) (k : α) (v : β) :
    alookup (aupdate l k v) k = some v := by
  induction l with
  | nil => simp [aupdate, alookup]
  | cons e rest ih =>
    by_cases hk : k = e.1
    · simp [aupdate, hk, alookup]
    · simp [aupdate, hk, alookup, ih]

theorem alookup_aupdate_ne {α β : Type} [DecidableEq α] (l : List (α × β)) {k k' : α} (v : β)
    (hne : k' ≠ k) : alookup (aupdate l k v) k' = alookup l k' := by
  induction l with
  | nil => simp [aupdate, alookup, hne]
  | cons e rest ih =>
    by_cases hk : k = e.1
    · subst hk
      simp [aupdate, alookup, hne]
    · by_cases hk' : k' = e.1
      · simp [aupdate, alookup, hk, hk']
      · simp [aupdate, alookup, hk, hk', ih]

theorem mem_aupdate_map_fst {α β : Type} [DecidableEq α] {l : List (α × β)} {k : α} {v : β}
    {x : α} : x ∈ (aupdate l k v).map Prod.fst ↔ x = k ∨ x ∈ l.map Prod.fst := by
  induction l with
  | nil => simp [aupdate]
  | cons e rest ih =>
    by_cases hk : k = e.1
    · subst hk
      simp [aupdate]
    · simp only [aupdate, if_neg hk, List.map_cons, List.mem_cons, ih]
      tauto

theorem aupdate_map_fst_nodup {α β : Type} [DecidableEq α] {l : List (α × β)} (k : α) (v : β)
    (hnd : (l.map Prod.fst).Nodup) : ((aupdate l k v).map Prod.fst).Nodup := by
  induction l with
  | nil => simp [aupdate]
  | cons e rest ih =>
    simp only [List.map_cons, List.nodup_cons] at hnd
    by_cases hk : k = e.1
    · subst hk
      have hstep : aupdate (e :: rest) e.1 v = (e.1, v) :: rest := by
        simp [aupdate]
      rw [hstep, List.map_cons, List.nodup_cons]
      exact hnd
    · simp only [aupdate, if_neg hk, List.map_cons, List.nodup_cons]
      refine ⟨?_, ih hnd.2⟩
      intro hmem
      rcases mem_aupdate_map_fst.mp hmem with h | h
      · exact hk h.symm
      · exact hnd.1 h

/-! ## Edge pruning (`prune_redundant_edges`, build_cabane_graph.py lines 290-331)

`best_dist_for_pair` is a dict from unordered hut-id pairs to distances in
kilometers; we model it as an association list `Table`. -/

/-- Distance table `best_dist_for_pair : {(hut, hut) : km}`. -/
abbrev Table := List ((ℕ × ℕ) × ℚ)

/-- Key normalisation `(a, b) if a < b else (b, a)` (line 303). -/
def normPair (a b : ℕ) : ℕ × ℕ := if a < b then (a, b) else (b, a)

/-- The set `huts` of all pair endpoints (lines 295-298).  Python builds a
`set`; only membership is ever used, so a list with duplicates is an
equivalent model. -/
def hutsOf (t : Table) : List ℕ := t.flatMap (fun e => [e.1.1, e.1.2])

/-- The local helper `dist(a, b)` (lines 300-304): `0.0` on the diagonal,
otherwise a lookup of the normalised key. -/
def distOf (t : Table) (a b : ℕ) : Option ℚ :=
  if a = b then some 0 else alookup t (normPair a b)

/-- The inner `for c in huts` loop for one pair `(a, b)` (lines 314-325):
does some third hut `c` give a two-hop path with
`d(a,c) + d(c,b) <= d(a,b) * (1 + epsilon)`?  The same loop body appears
verbatim in `prune_indirect_edges` (filter_edges_max35.py lines 67-78). -/
def hasShortcut (t : Table) (ε : ℚ) (a b : ℕ) (dab : ℚ) : Bool :=
  (hutsOf t).any fun c =>
    if c = a ∨ c = b then false
    else
      match distOf t a c with
      | none => false
      | some dac =>
        match distOf t c b with
        | none => false
        | some dcb => decide (dac + dcb ≤ dab * (1 + ε))

/-- The `to_remove` accumulation loop (lines 306-325): every pair is tested
against the full, unmodified table `t`; a pair already marked is skipped. -/
def toRemoveLoop (t : Table) (ε : ℚ) : List (ℕ × ℕ) :=
  t.foldl
    (fun acc e =>
      if e.1 ∈ acc then acc
      else if hasShortcut t ε e.1.1 e.1.2 e.2 then e.1 :: acc else acc)
    []

/-- `prune_redundant_edges` (lines 290-331).  The source deletes the marked
keys from the dict in place after the loop; functionally the surviving table
is the entries whose key was not marked. -/
def pruneRedundantEdges (t : Table) (ε : ℚ) : Table :=
  t.filter fun e => decide (e.1 ∉ toRemoveLoop t ε)

theorem mem_toRemoveLoop_iff {t : Table} {ε : ℚ} {k : ℕ × ℕ} :
    k ∈ toRemoveLoop t ε ↔ ∃ d, (k, d) ∈ t ∧ hasShortcut t ε k.1 k.2 d = true := by
  have haux : ∀ (l : Table) (acc : List (ℕ × ℕ)),
      k ∈ l.foldl
        (fun acc e =>
          if e.1 ∈ acc then acc
          else if hasShortcut t ε e.1.1 e.1.2 e.2 then e.1 :: acc else acc) acc ↔
      k ∈ acc ∨ ∃ d, (k, d) ∈ l ∧ hasShortcut t ε k.1 k.2 d = true := by
    intro l
    induction l with
    | nil => simp
    | cons e rest ih =>
      intro acc
      have hsplit : (∃ d, (k, d) ∈ e :: rest ∧ hasShortcut t ε k.1 k.2 d = true) ↔
          ((k = e.1 ∧ hasShortcut t ε k.1 k.2 e.2 = true) ∨
            ∃ d, (k, d) ∈ rest ∧ hasShortcut t ε k.1 k.2 d = true) := by
        constructor
        · rintro ⟨d, hd, hs⟩
          rcases List.mem_cons.mp hd with he | he
          · have hk : k = e.1 := congrArg Prod.fst he
            have hd2 : d = e.2 := congrArg Prod.snd he
            exact Or.inl ⟨hk, hd2 ▸ hs⟩
          · exact Or.inr ⟨d, he, hs⟩
        · rintro (⟨hk, hs⟩ | ⟨d, hd, hs⟩)
          · refine ⟨e.2, ?_, hs⟩
            rw [hk, Prod.mk.eta]
            exact List.mem_cons_self _ _
          · exact ⟨d, List.mem_cons_of_mem _ hd, hs⟩
      rw [List.foldl_cons, ih, hsplit]
      by_cases hacc : e.1 ∈ acc
      · rw [if_pos hacc]
        constructor
        · rintro (h | h)
          · exact Or.inl h
          · exact Or.inr (Or.inr h)
        · rintro (h | (⟨hk, _⟩ | h))
          · exact Or.inl h
          · exact Or.inl (hk ▸ hacc)
          · exact Or.inr h
      · rw [if_neg hacc]
        by_cases hsc : hasShortcut t ε e.1.1 e.1.2 e.2 = true
        · rw [if_pos hsc]
          constructor
          · rintro (h | h)
            · rcases List.mem_cons.mp h with hk | hk
              · refine Or.inr (Or.inl ⟨hk, ?_⟩)
                rw [hk]
                exact hsc
              · exact Or.inl hk
            · exact Or.inr (Or.inr h)
          · rintro (h | (⟨hk, _⟩ | h))
            · exact Or.inl (List.mem_cons_of_mem _ h)
            · exact Or.inl (hk ▸ List.mem_cons_self _ _)
            · exact Or.inr h
        · rw [if_neg hsc]
          constructor
          · rintro (h | h)
            · exact Or.inl h
            · exact Or.inr (Or.inr h)
          · rintro (h | (⟨hk, hs⟩ | h))
            · exact Or.inl h
            · exact absurd (by rw [← hk]; exact hs) hsc
            · exact Or.inr h
  rw [toRemoveLoop, haux]
  simp

theorem mem_hutsOf_of_entry {t : Table} {k : ℕ × ℕ} {v : ℚ} (h : (k, v) ∈ t) :
    k.1 ∈ hutsOf t ∧ k.2 ∈ hutsOf t := by
  constructor
  · exact List.mem_flatMap.mpr ⟨(k, v), h, by simp⟩
  · exact List.mem_flatMap.mpr ⟨(k, v), h, by simp⟩

theorem normPair_cases (a b : ℕ) : normPair a b = (a, b) ∨ normPair a b = (b, a) := by
  rw [normPair]
  by_cases h : a < b
  · exact Or.inl (if_pos h)
  · exact Or.inr (if_neg h)

/-- Characterisation of the inner shortcut test as the spec states it:
there is a hut `c`, distinct from both endpoints, whose two legs are both
present in the table and whose length sum is within `1 + ε` of the direct
distance.  (The quantification over `c` ranges over all of `ℕ`; a `c` with a
leg present in the table is automatically an endpoint of some pair, i.e. a
hut of the domain.) -/
theorem hasShortcut_eq_true_iff (t : Table) (ε : ℚ) (a b : ℕ) (dab : ℚ) :
    hasShortcut t ε a b dab = true ↔
      ∃ c, c ≠ a ∧ c ≠ b ∧ ∃ dac dcb,
        alookup t (normPair a c) = some dac ∧
        alookup t (normPair c b) = some dcb ∧
        dac + dcb ≤ dab * (1 + ε) := by
  rw [hasShortcut, List.any_eq_true]
  constructor
  · rintro ⟨c, hc, hp⟩
    by_cases hab : c = a ∨ c = b
    · rw [if_pos hab] at hp
      exact absurd hp (by simp)
    · rw [if_neg hab] at hp
      push_neg at hab
      have hac : a ≠ c := fun h => hab.1 h.symm
      have hcb : c ≠ b := hab.2
      rw [distOf, if_neg hac] at hp
      cases h1 : alookup t (normPair a c) with
      | none => rw [h1] at hp; exact absurd hp (by simp)
      | some dac =>
        rw [h1] at hp
        rw [distOf, if_neg hcb] at hp
        cases h2 : alookup t (normPair c b) with
        | none => rw [h2] at hp; exact absurd hp (by simp)
        | some dcb =>
          rw [h2] at hp
          exact ⟨c, hab.1, hab.2, dac, dcb, h1, h2, of_decide_eq_true hp⟩
  · rintro ⟨c, hca, hcb, dac, dcb, h1, h2, hle⟩
    have hcmem : c ∈ hutsOf t := by
      have hm := alookup_mem h1
      rcases normPair_cases a c with h | h <;> rw [h] at hm
      · exact (mem_hutsOf_of_entry hm).2
      · exact (mem_hutsOf_of_entry hm).1
    refine ⟨c, hcmem, ?_⟩
    rw [if_neg (by push_neg; exact ⟨hca, hcb⟩)]
    rw [distOf, if_neg (fun h => hca h.symm), h1]
    rw [distOf, if_neg hcb, h2]
    exact decide_eq_true hle

/-- C2: an entry of the table is removed by `prune_redundant_edges` iff a
two-hop alternative through a third hut, both of whose legs are raw edges of
the original table, is within `1 + ε` of the direct distance; the pruned
table is a subset of the original (removal is a set difference, decided
entirely against the unmodified table `t`). -/
theorem c2_prune_removes_iff_two_hop (t : Table) (ε : ℚ)
    (hnd : (t.map Prod.fst).Nodup) :
    (∀ e ∈ pruneRedundantEdges t ε, e ∈ t) ∧
    ∀ a b dab, ((a, b), dab) ∈ t →
      (((a, b), dab) ∉ pruneRedundantEdges t ε ↔
        ∃ c, c ≠ a ∧ c ≠ b ∧ ∃ dac dcb,
          alookup t (normPair a c) = some dac ∧
          alookup t (normPair c b) = some dcb ∧
          dac + dcb ≤ dab * (1 + ε)) := by
  constructor
  · intro e he
    exact (List.mem_filter.mp he).1
  · intro a b dab hmem
    rw [← hasShortcut_eq_true_iff]
    constructor
    · intro hnp
      by_contra hsc
      apply hnp
      rw [pruneRedundantEdges, List.mem_filter]
      refine ⟨hmem, ?_⟩
      rw [decide_eq_true_eq]
      intro hin
      rcases mem_toRemoveLoop_iff.mp hin with ⟨d, hd, hs⟩
      have h1 := alookup_of_mem_nodup hnd hd
      have h2 := alookup_of_mem_nodup hnd hmem
      rw [h1] at h2
      have hdd : d = dab := by
        injection h2
      rw [hdd] at hs
      exact hsc hs
    · intro hsc hinp
      rw [pruneRedundantEdges, List.mem_filter, decide_eq_true_eq] at hinp
      exact hinp.2 (mem_toRemoveLoop_iff.mpr ⟨dab, hmem, hsc⟩)

/-- Concrete table from the spec's pruning scenario: `d(A,C) = 10`,
`d(C,B) = 12`, `d(A,B) = 21` with `A, C, B = 1, 2, 3`. -/
def exTable : Table := [((1, 2), 10), ((2, 3), 12), ((1, 3), 21)]

/-- Witness for C2 at the spec's own scenario: with `ε = 1/20` the direct
edge `(1, 3)` of length `21` is removed because `10 + 12 ≤ 21 * (1 + 1/20)`. -/
theorem c2_witness :
    ((∀ e ∈ pruneRedundantEdges exTable (1/20), e ∈ exTable) ∧
      ∀ a b dab, ((a, b), dab) ∈ exTable →
        (((a, b), dab) ∉ pruneRedundantEdges exTable (1/20) ↔
          ∃ c, c ≠ a ∧ c ≠ b ∧ ∃ dac dcb,
            alookup exTable (normPair a c) = some dac ∧
            alookup exTable (normPair c b) = some dcb ∧
            dac + dcb ≤ dab * (1 + 1/20))) :=
  c2_prune_removes_iff_two_hop exTable (1/20) (by simp [exTable])

theorem alookup_sublist {α β : Type} [DecidableEq α] {l' l : List (α × β)}
    (hsub : l'.Sublist l) (hnd : (l.map Prod.fst).Nodup) {k : α} {v : β}
    (h : alookup l' k = some v) : alookup l k = some v :=
  alookup_of_mem_nodup hnd (hsub.subset (alookup_mem h))

theorem hasShortcut_mono_table {t t' : Table}
    (hlift : ∀ k v, alookup t' k = some v → alookup t k = some v)
    {ε : ℚ} {a b : ℕ} {dab : ℚ} (h : hasShortcut t' ε a b dab = true) :
    hasShortcut t ε a b dab = true := by
  rw [hasShortcut_eq_true_iff] at h ⊢
  obtain ⟨c, h1, h2, dac, dcb, l1, l2, hle⟩ := h
  exact ⟨c, h1, h2, dac, dcb, hlift _ _ l1, hlift _ _ l2, hle⟩

theorem hasShortcut_mono_eps {t : Table} {ε₁ ε₂ : ℚ} {a b : ℕ} {dab : ℚ}
    (hd : 0 ≤ dab) (hee : ε₁ ≤ ε₂) (h : hasShortcut t ε₁ a b dab = true) :
    hasShortcut t ε₂ a b dab = true := by
  rw [hasShortcut_eq_true_iff] at h ⊢
  obtain ⟨c, h1, h2, dac, dcb, l1, l2, hle⟩ := h
  refine ⟨c, h1, h2, dac, dcb, l1, l2, hle.trans ?_⟩
  exact mul_le_mul_of_nonneg_left (add_le_add_left hee 1) hd

/-- C4: on a table with unique keys (a Python dict), pruning a second time
removes nothing further: any shortcut present in the once-pruned table was
already present in the original table, so a surviving pair would have been
removed the first time. -/
theorem c4_prune_idempotent (t : Table) (ε : ℚ) (_hε : 0 ≤ ε)
    (hnd : (t.map Prod.fst).Nodup) :
    pruneRedundantEdges (pruneRedundantEdges t ε) ε = pruneRedundantEdges t ε := by
  have hsub : (pruneRedundantEdges t ε).Sublist t := List.filter_sublist t
  have hkeep : ∀ e ∈ pruneRedundantEdges t ε,
      e.1 ∉ toRemoveLoop (pruneRedundantEdges t ε) ε := by
    intro e he hin
    rcases mem_toRemoveLoop_iff.mp hin with ⟨d, hd, hs⟩
    have hs2 : hasShortcut t ε e.1.1 e.1.2 d = true :=
      hasShortcut_mono_table (fun k v h => alookup_sublist hsub hnd h) hs
    have hdT : (e.1, d) ∈ t := hsub.subset hd
    have hpred := (List.mem_filter.mp he).2
    rw [decide_eq_true_eq] at hpred
    exact hpred (mem_toRemoveLoop_iff.mpr ⟨d, hdT, hs2⟩)
  apply List.filter_eq_self.mpr
  intro e he
  rw [decide_eq_true_eq]
  exact hkeep e he

/-- Witness for C4 at the spec's 10/12/21 scenario table. -/
theorem c4_witness :
    pruneRedundantEdges (pruneRedundantEdges exTable (1/20)) (1/20) =
      pruneRedundantEdges exTable (1/20) :=
  c4_prune_idempotent exTable (1/20) (by norm_num) (by simp [exTable])

/-- C5: with `ε = 0` an entry is pruned iff some third hut gives a two-hop
path of total length at most the direct distance; and for a table of
nonnegative distances the set of pruned entries only grows with `ε`. -/
theorem c5_eps_zero_and_monotone (t : Table) (hnd : (t.map Prod.fst).Nodup)
    (hpos : ∀ e ∈ t, 0 ≤ e.2) :
    (∀ a b dab, ((a, b), dab) ∈ t →
      (((a, b), dab) ∉ pruneRedundantEdges t 0 ↔
        ∃ c, c ≠ a ∧ c ≠ b ∧ ∃ dac dcb,
          alookup t (normPair a c) = some dac ∧
          alookup t (normPair c b) = some dcb ∧
          dac + dcb ≤ dab)) ∧
    (∀ ε₁ ε₂, 0 ≤ ε₁ → ε₁ ≤ ε₂ →
      ∀ e ∈ t, e ∉ pruneRedundantEdges t ε₁ → e ∉ pruneRedundantEdges t ε₂) := by
  constructor
  · intro a b dab hmem
    constructor
    · intro hnp
      by_contra hsc
      apply hnp
      rw [pruneRedundantEdges, List.mem_filter]
      refine ⟨hmem, ?_⟩
      rw [decide_eq_true_eq]
      intro hin
      rcases mem_toRemoveLoop_iff.mp hin with ⟨d, hd, hs⟩
      have h1 := alookup_of_mem_nodup hnd hd
      have h2 := alookup_of_mem_nodup hnd hmem
      rw [h1] at h2
      have hdd : d = dab := by injection h2
      rw [hdd] at hs
      rw [hasShortcut_eq_true_iff] at hs
      obtain ⟨c, hc1, hc2, dac, dcb, l1, l2, hle⟩ := hs
      rw [add_zero, mul_one] at hle
      exact hsc ⟨c, hc1, hc2, dac, dcb, l1, l2, hle⟩
    · rintro ⟨c, hc1, hc2, dac, dcb, l1, l2, hle⟩ hinp
      rw [pruneRedundantEdges, List.mem_filter, decide_eq_true_eq] at hinp
      apply hinp.2
      apply mem_toRemoveLoop_iff.mpr
      refine ⟨dab, hmem, ?_⟩
      rw [hasShortcut_eq_true_iff]
      exact ⟨c, hc1, hc2, dac, dcb, l1, l2, by rw [add_zero, mul_one]; exact hle⟩
  · intro ε₁ ε₂ h1 h12 e he hnp1 hmem2
    have hin1 : e.1 ∈ toRemoveLoop t ε₁ := by
      by_contra hnin
      exact hnp1 (List.mem_filter.mpr ⟨he, by rw [decide_eq_true_eq]; exact hnin⟩)
    rcases mem_toRemoveLoop_iff.mp hin1 with ⟨d, hd, hs⟩
    have hd0 : 0 ≤ d := hpos (e.1, d) hd
    have hs2 := hasShortcut_mono_eps hd0 h12 hs
    have hpred := (List.mem_filter.mp hmem2).2
    rw [decide_eq_true_eq] at hpred
    exact hpred (mem_toRemoveLoop_iff.mpr ⟨d, hd, hs2⟩)

/-- Witness for C5 at the spec scenario table. -/
theorem c5_witness :
    ((∀ a b dab, ((a, b), dab) ∈ exTable →
      (((a, b), dab) ∉ pruneRedundantEdges exTable 0 ↔
        ∃ c, c ≠ a ∧ c ≠ b ∧ ∃ dac dcb,
          alookup exTable (normPair a c) = some dac ∧
          alookup exTable (normPair c b) = some dcb ∧
          dac + dcb ≤ dab)) ∧
    (∀ ε₁ ε₂, 0 ≤ ε₁ → ε₁ ≤ ε₂ →
      ∀ e ∈ exTable, e ∉ pruneRedundantEdges exTable ε₁ →
        e ∉ pruneRedundantEdges exTable ε₂)) :=
  c5_eps_zero_and_monotone exTable (by simp [exTable]) (by norm_num [exTable])

/-! ## The second pruning implementation (`prune_indirect_edges`,
filter_edges_max35.py lines 36-85), operating on the same unordered-pair
distance table `pair_dist`. -/

/-- The `to_remove` loop of `prune_indirect_edges` (lines 61-78): the same
per-pair test as `prune_redundant_edges`, but with no already-marked skip. -/
def toRemoveIndirect (t : Table) (ε : ℚ) : List (ℕ × ℕ) :=
  t.foldl
    (fun acc e => if hasShortcut t ε e.1.1 e.1.2 e.2 then e.1 :: acc else acc) []

/-- The kept-pair set of `prune_indirect_edges` (lines 82-85):
`set(pair_dist.keys()) - {(a, b) if a < b else (b, a) for (a, b) in to_remove}`.
A Python set is modelled by a list whose membership is the set's membership. -/
def pruneIndirectKept (t : Table) (ε : ℚ) : List (ℕ × ℕ) :=
  (t.map Prod.fst).filter fun k =>
    decide (k ∉ (toRemoveIndirect t ε).map (fun r => normPair r.1 r.2))

theorem mem_toRemoveIndirect_iff {t : Table} {ε : ℚ} {k : ℕ × ℕ} :
    k ∈ toRemoveIndirect t ε ↔ ∃ d, (k, d) ∈ t ∧ hasShortcut t ε k.1 k.2 d = true := by
  have haux : ∀ (l : Table) (acc : List (ℕ × ℕ)),
      k ∈ l.foldl
        (fun acc e => if hasShortcut t ε e.1.1 e.1.2 e.2 then e.1 :: acc else acc) acc ↔
      k ∈ acc ∨ ∃ d, (k, d) ∈ l ∧ hasShortcut t ε k.1 k.2 d = true := by
    intro l
    induction l with
    | nil => simp
    | cons e rest ih =>
      intro acc
      have hsplit : (∃ d, (k, d) ∈ e :: rest ∧ hasShortcut t ε k.1 k.2 d = true) ↔
          ((k = e.1 ∧ hasShortcut t ε k.1 k.2 e.2 = true) ∨
            ∃ d, (k, d) ∈ rest ∧ hasShortcut t ε k.1 k.2 d = true) := by
        constructor
        · rintro ⟨d, hd, hs⟩
          rcases List.mem_cons.mp hd with he | he
          · have hk : k = e.1 := congrArg Prod.fst he
            have hd2 : d = e.2 := congrArg Prod.snd he
            exact Or.inl ⟨hk, hd2 ▸ hs⟩
          · exact Or.inr ⟨d, he, hs⟩
        · rintro (⟨hk, hs⟩ | ⟨d, hd, hs⟩)
          · refine ⟨e.2, ?_, hs⟩
            rw [hk, Prod.mk.eta]
            exact List.mem_cons_self _ _
          · exact ⟨d, List.mem_cons_of_mem _ hd, hs⟩
      rw [List.foldl_cons, ih, hsplit]
      by_cases hsc : hasShortcut t ε e.1.1 e.1.2 e.2 = true
      · rw [if_pos hsc]
        constructor
        · rintro (h | h)
          · rcases List.mem_cons.mp h with hk | hk
            · refine Or.inr (Or.inl ⟨hk, ?_⟩)
              rw [hk]
              exact hsc
            · exact Or.inl hk
          · exact Or.inr (Or.inr h)
        · rintro (h | (⟨hk, _⟩ | h))
          · exact Or.inl (List.mem_cons_of_mem _ h)
          · exact Or.inl (hk ▸ List.mem_cons_self _ _)
          · exact Or.inr h
      · rw [if_neg hsc]
        constructor
        · rintro (h | h)
          · exact Or.inl h
          · exact Or.inr (Or.inr h)
        · rintro (h | (⟨hk, hs⟩ | h))
          · exact Or.inl h
          · exact absurd (by rw [← hk]; exact hs) hsc
          · exact Or.inr h
  rw [toRemoveIndirect, haux]
  simp

theorem normPair_self_of_le {a b : ℕ} (h : a ≤ b) : normPair a b = (a, b) := by
  rw [normPair]
  rcases lt_or_eq_of_le h with h' | h'
  · exact if_pos h'
  · subst h'
    rw [if_neg (lt_irrefl a)]

theorem map_fst_filter_key (t : Table) (p : ℕ × ℕ → Bool) :
    (t.filter fun e => p e.1).map Prod.fst = (t.map Prod.fst).filter p := by
  induction t with
  | nil => simp
  | cons e rest ih =>
    by_cases hp : p e.1
    · simp [List.filter_cons, hp, ih]
    · simp only [Bool.not_eq_true] at hp
      simp [List.filter_cons, hp, ih]

/-- C10: on a table of normalised unordered keys (each key `(a, b)` has
`a ≤ b`, as both scripts construct them), the keys kept by
`prune_redundant_edges` coincide with the kept-pair set returned by
`prune_indirect_edges`: the two pruning implementations are equivalent. -/
theorem c10_prune_implementations_equiv (t : Table) (ε : ℚ)
    (hkeys : ∀ e ∈ t, e.1.1 ≤ e.1.2) :
    (pruneRedundantEdges t ε).map Prod.fst = pruneIndirectKept t ε := by
  rw [pruneRedundantEdges, pruneIndirectKept,
    map_fst_filter_key t (fun k => decide (k ∉ toRemoveLoop t ε))]
  apply List.filter_congr
  intro k hk
  rcases List.mem_map.mp hk with ⟨e, he, hke⟩
  have hle : k.1 ≤ k.2 := hke ▸ hkeys e he
  have hiff : k ∈ toRemoveLoop t ε ↔
      k ∈ (toRemoveIndirect t ε).map fun r => normPair r.1 r.2 := by
    constructor
    · intro h
      rcases mem_toRemoveLoop_iff.mp h with ⟨d, hd, hs⟩
      refine List.mem_map.mpr ⟨k, mem_toRemoveIndirect_iff.mpr ⟨d, hd, hs⟩, ?_⟩
      rw [normPair_self_of_le hle, Prod.mk.eta]
    · intro h
      rcases List.mem_map.mp h with ⟨r, hr, hrk⟩
      rcases mem_toRemoveIndirect_iff.mp hr with ⟨d, hd, hs⟩
      have hrle : r.1 ≤ r.2 := hkeys (r, d) hd
      have hkr : k = r := by
        rw [← hrk, normPair_self_of_le hrle, Prod.mk.eta]
      rw [hkr]
      exact mem_toRemoveLoop_iff.mpr ⟨d, hd, hs⟩
  simp only [decide_eq_decide]
  exact not_congr hiff

/-- Witness for C10 at the spec scenario table. -/
theorem c10_witness :
    (pruneRedundantEdges exTable (1/20)).map Prod.fst =
      pruneIndirectKept exTable (1/20) :=
  c10_prune_implementations_equiv exTable (1/20) (by simp [exTable])

/-! ## Trail graph builder (`build_graph`, build_cabane_graph.py lines 174-202) -/

/-- Coordinates of an OSM node, as the graph builder reads them.  The
haversine metric itself (lines 12-24) is a transcendental formula on floats
with no computable rational counterpart, so the builder is embedded
parametrically in the distance metric `dm`; every theorem about the builder
holds for the haversine instantiation in particular. -/
structure OsmNode where
  lat : ℚ
  lon : ℚ
deriving DecidableEq

/-- Adjacency entries produced by one way (lines 180-198): for each
consecutive node pair whose endpoints are both in the coordinate map, the
segment weight is computed once by `dm` on the endpoint coordinates and the
edge is appended in both directions with that same weight. -/
def wayEntries (dm : ℚ → ℚ → ℚ → ℚ → ℚ) (nodes : List (ℕ × OsmNode))
    (nids : List ℕ) : List (ℕ × ℕ × ℚ) :=
  if nids.length < 2 then []
  else
    (nids.zip nids.tail).flatMap fun pr =>
      match alookup nodes pr.1, alookup nodes pr.2 with
      | some n1, some n2 =>
        [(pr.1, pr.2, dm n1.lat n1.lon n2.lat n2.lon),
         (pr.2, pr.1, dm n1.lat n1.lon n2.lat n2.lon)]
      | _, _ => []

/-- All directed adjacency entries of `build_graph` over all ways. -/
def buildGraphEntries (dm : ℚ → ℚ → ℚ → ℚ → ℚ) (nodes : List (ℕ × OsmNode))
    (ways : List (ℕ × List ℕ)) : List (ℕ × ℕ × ℚ) :=
  ways.flatMap fun wy => wayEntries dm nodes wy.2

/-- The adjacency list `graph[n]` of the defaultdict built by `build_graph`:
the `(neighbor, dist)` pairs appended with source `n`, in insertion order. -/
def buildGraphAdj (dm : ℚ → ℚ → ℚ → ℚ → ℚ) (nodes : List (ℕ × OsmNode))
    (ways : List (ℕ × List ℕ)) (n : ℕ) : List (ℕ × ℚ) :=
  (buildGraphEntries dm nodes ways).filterMap fun e =>
    if e.1 = n then some e.2 else none

theorem mem_zip_tail {nids : List ℕ} {i : ℕ} {a b : ℕ}
    (ha : nids.get? i = some a) (hb : nids.get? (i + 1) = some b) :
    (a, b) ∈ nids.zip nids.tail := by
  induction nids generalizing i with
  | nil => simp at ha
  | cons x xs ih =>
    cases i with
    | zero =>
      have hax : a = x := by
        simp [List.get?] at ha
        exact ha.symm
      cases xs with
      | nil => simp at hb
      | cons y ys =>
        have hby : b = y := by
          simp [List.get?] at hb
          exact hb.symm
        rw [hax, hby]
        exact List.mem_cons_self _ _
    | succ j =>
      have ha' : xs.get? j = some a := ha
      have hb' : xs.get? (j + 1) = some b := hb
      have hmem := ih ha' hb'
      cases xs with
      | nil => simp at ha'
      | cons y ys => exact List.mem_cons_of_mem _ hmem

/-- C8: every trail segment inserted by `build_graph` between consecutive
way nodes `n1`, `n2` appears in both adjacency lists with the same weight,
and that weight is the distance metric applied to the two endpoints'
coordinates. -/
theorem c8_trail_edges_symmetric (dm : ℚ → ℚ → ℚ → ℚ → ℚ)
    (nodes : List (ℕ × OsmNode)) (ways : List (ℕ × List ℕ))
    (wid : ℕ) (nids : List ℕ) (i : ℕ) (n1 n2 : ℕ) (p1 p2 : OsmNode)
    (hway : (wid, nids) ∈ ways)
    (h1 : nids.get? i = some n1) (h2 : nids.get? (i + 1) = some n2)
    (hl1 : alookup nodes n1 = some p1) (hl2 : alookup nodes n2 = some p2) :
    (n2, dm p1.lat p1.lon p2.lat p2.lon) ∈ buildGraphAdj dm nodes ways n1 ∧
    (n1, dm p1.lat p1.lon p2.lat p2.lon) ∈ buildGraphAdj dm nodes ways n2 := by
  have hlen : ¬ nids.length < 2 := by
    obtain ⟨hlt, -⟩ := List.get?_eq_some.mp h2
    omega
  have hzip : (n1, n2) ∈ nids.zip nids.tail := mem_zip_tail h1 h2
  have hseg : ∀ x ∈ [(n1, n2, dm p1.lat p1.lon p2.lat p2.lon),
      (n2, n1, dm p1.lat p1.lon p2.lat p2.lon)],
      x ∈ buildGraphEntries dm nodes ways := by
    intro x hx
    apply List.mem_flatMap.mpr
    refine ⟨(wid, nids), hway, ?_⟩
    rw [wayEntries, if_neg hlen]
    apply List.mem_flatMap.mpr
    refine ⟨(n1, n2), hzip, ?_⟩
    rw [hl1, hl2]
    exact hx
  constructor
  · apply List.mem_filterMap.mpr
    refine ⟨(n1, n2, dm p1.lat p1.lon p2.lat p2.lon), hseg _ (by simp), ?_⟩
    rw [if_pos rfl]
  · apply List.mem_filterMap.mpr
    refine ⟨(n2, n1, dm p1.lat p1.lon p2.lat p2.lon), hseg _ (by simp), ?_⟩
    rw [if_pos rfl]

/-- Witness for C8: a two-node way with an arbitrary concrete metric. -/
theorem c8_witness :
    (2, (fun la lo lb lob => la + lo + lb + lob : ℚ → ℚ → ℚ → ℚ → ℚ) 0 0 0 1) ∈
      buildGraphAdj (fun la lo lb lob => la + lo + lb + lob)
        [(1, ⟨0, 0⟩), (2, ⟨0, 1⟩)] [(7, [1, 2])] 1 ∧
    (1, (fun la lo lb lob => la + lo + lb + lob : ℚ → ℚ → ℚ → ℚ → ℚ) 0 0 0 1) ∈
      buildGraphAdj (fun la lo lb lob => la + lo + lb + lob)
        [(1, ⟨0, 0⟩), (2, ⟨0, 1⟩)] [(7, [1, 2])] 2 :=
  c8_trail_edges_symmetric (fun la lo lb lob => la + lo + lb + lob)
    [(1, ⟨0, 0⟩), (2, ⟨0, 1⟩)] [(7, [1, 2])] 7 [1, 2] 0 1 2 ⟨0, 0⟩ ⟨0, 1⟩
    (by simp) rfl rfl rfl rfl

/-! ## Spatial index (`build_spatial_index`, build_cabane_graph.py
lines 208-218; the query side of `find_nearest_graph_node_for_hut` computes
the target cell with the same formula, lines 234-235). -/

/-- Python `int()` applied to a rational: truncation toward zero, i.e. the
ceiling for negative arguments and the floor for nonnegative ones. -/
def pyInt (q : ℚ) : ℤ := if q < 0 then ⌈q⌉ else ⌊q⌋

/-- Cell index `int(coord / cell_size_deg)` (lines 214-215 and 234-235). -/
def cellIndex (cellSize q : ℚ) : ℤ := pyInt (q / cellSize)

/-- Cell of a node: `(int(lat / cell_size), int(lon / cell_size))`. -/
def cellOf (cellSize : ℚ) (nd : OsmNode) : ℤ × ℤ :=
  (cellIndex cellSize nd.lat, cellIndex cellSize nd.lon)

/-- `build_spatial_index` as the list of `(cell, node_id)` bucket
assignments over the graph's node ids (`cells[(i, j)].append(node_id)`);
the source indexes `nodes[node_id]` directly, which presupposes every graph
node is in the coordinate map, so ids without coordinates contribute no
assignment. -/
def buildSpatialIndex (cellSize : ℚ) (nodes : List (ℕ × OsmNode))
    (graphKeys : List ℕ) : List ((ℤ × ℤ) × ℕ) :=
  graphKeys.filterMap fun nid =>
    (alookup nodes nid).map fun nd => (cellOf cellSize nd, nid)

/-- Counterexample to C7: for a negative coordinate the assigned cell index
is not the floor of `coordinate / cell_size`.  At latitude `-0.01` with the
default cell size `0.05`, the quotient is `-1/5`; `int()` truncates it to
`0` while the floor is `-1`. -/
theorem c7_counterexample :
    cellIndex (1/20) (-(1/100)) ≠ ⌊((-(1/100) : ℚ) / (1/20))⌋ := by
  have hq : ((-(1/100) : ℚ) / (1/20)) = -(1/5) := by norm_num
  have h1 : cellIndex (1/20) (-(1/100)) = 0 := by
    rw [cellIndex, pyInt, hq]
    rw [if_pos (by norm_num)]
    rw [show ⌈(-(1/5) : ℚ)⌉ = 0 from by
      rw [Int.ceil_eq_iff]
      norm_num]
  have h2 : ⌊((-(1/100) : ℚ) / (1/20))⌋ = -1 := by
    rw [hq]
    rw [Int.floor_eq_iff]
    norm_num
  rw [h1, h2]
  decide

/-- C7 as amended: every bucket assignment of the spatial index carries the
cell `(int(lat / cell_size), int(lon / cell_size))` with `int()` truncating
toward zero; whenever a quotient is nonnegative (in particular for
nonnegative coordinates with the positive default cell size) that index
equals the floor the claim states. -/
theorem c7_cell_truncates_toward_zero (cellSize : ℚ) (nodes : List (ℕ × OsmNode))
    (graphKeys : List ℕ) (c : ℤ × ℤ) (nid : ℕ)
    (hmem : (c, nid) ∈ buildSpatialIndex cellSize nodes graphKeys) :
    ∃ nd, alookup nodes nid = some nd ∧
      c = (pyInt (nd.lat / cellSize), pyInt (nd.lon / cellSize)) ∧
      (0 ≤ nd.lat / cellSize → c.1 = ⌊nd.lat / cellSize⌋) ∧
      (0 ≤ nd.lon / cellSize → c.2 = ⌊nd.lon / cellSize⌋) := by
  rcases List.mem_filterMap.mp hmem with ⟨nid', hnid', hf⟩
  cases hnd : alookup nodes nid' with
  | none => rw [hnd] at hf; simp at hf
  | some nd =>
    rw [hnd] at hf
    have hf3 : (cellOf cellSize nd, nid') = (c, nid) := Option.some.inj hf
    have hc : c = cellOf cellSize nd := (congrArg Prod.fst hf3).symm
    have hid : nid' = nid := congrArg Prod.snd hf3
    refine ⟨nd, hid ▸ hnd, ?_, ?_, ?_⟩
    · rw [hc]
      rfl
    · intro hq
      rw [hc]
      show cellIndex cellSize nd.lat = _
      rw [cellIndex, pyInt, if_neg (not_lt.mpr hq)]
    · intro hq
      rw [hc]
      show cellIndex cellSize nd.lon = _
      rw [cellIndex, pyInt, if_neg (not_lt.mpr hq)]

/-- Witness for the amended C7 at a node on the equator/prime meridian. -/
theorem c7_witness :
    ∃ nd, alookup [(5, (⟨0, 0⟩ : OsmNode))] 5 = some nd ∧
      ((0, 0) : ℤ × ℤ) = (pyInt (nd.lat / (1/20)), pyInt (nd.lon / (1/20))) ∧
      (0 ≤ nd.lat / (1/20) → ((0, 0) : ℤ × ℤ).1 = ⌊nd.lat / (1/20)⌋) ∧
      (0 ≤ nd.lon / (1/20) → ((0, 0) : ℤ × ℤ).2 = ⌊nd.lon / (1/20)⌋) :=
  c7_cell_truncates_toward_zero (1/20) [(5, ⟨0, 0⟩)] [5] (0, 0) 5
    (by
      have h0 : cellIndex (1/20) 0 = 0 := by
        have hq : (0 : ℚ) / (1/20) = 0 := by norm_num
        rw [cellIndex, hq, pyInt, if_neg (lt_irrefl 0), Int.floor_zero]
      have hcell : cellOf (1/20) (⟨0, 0⟩ : OsmNode) = (0, 0) := by
        rw [cellOf]
        show (cellIndex (1/20) 0, cellIndex (1/20) 0) = (0, 0)
        rw [h0]
      apply List.mem_filterMap.mpr
      refine ⟨5, List.mem_cons_self _ _, ?_⟩
      show (alookup [(5, (⟨0, 0⟩ : OsmNode))] 5).map
          (fun nd => (cellOf (1/20) nd, 5)) = some ((0, 0), 5)
      rw [show alookup [(5, (⟨0, 0⟩ : OsmNode))] 5 = some ⟨0, 0⟩ from rfl]
      show some (cellOf (1/20) (⟨0, 0⟩ : OsmNode), 5) = some ((0, 0), 5)
      rw [hcell])

/-! ## Hut-to-hut distance engine (`build_hut_graph`, build_cabane_graph.py
lines 337-393) -/

/-- Pop of `heapq.heappop`: removes the lexicographically least
`(distance, node)` tuple of the heap. -/
def popMin : List (ℚ × ℕ) → Option ((ℚ × ℕ) × List (ℚ × ℕ))
  | [] => none
  | x :: xs =>
    match popMin xs with
    | none => some (x, [])
    | some (m, rest) =>
      if m.1 < x.1 ∨ (m.1 = x.1 ∧ m.2 < x.2) then some (m, x :: rest)
      else some (x, xs)

/-- `a, b = min(hut_source, hut_target), max(...)` (lines 369-370). -/
def pairKey (a b : ℕ) : ℕ × ℕ := (min a b, max a b)

/-- The keep-minimum update `old is None or d_km < old` (lines 371-373). -/
def updateMin (bb : Table) (k : ℕ × ℕ) (v : ℚ) : Table :=
  match alookup bb k with
  | none => aupdate bb k v
  | some old => if v < old then aupdate bb k v else bb

/-- The recording loop over the huts anchored at a popped node
(lines 365-373). -/
def recordBest (hba : ℕ → List ℕ) (hutSource : ℕ) (dkm : ℚ) (node : ℕ)
    (best : Table) : Table :=
  (hba node).foldl
    (fun bb hutTarget =>
      if hutTarget = hutSource then bb
      else updateMin bb (pairKey hutSource hutTarget) dkm)
    best

/-- `nd < dist_dict.get(neigh, float("inf"))` (line 380). -/
def ltGetD (nd : ℚ) (o : Option ℚ) : Bool :=
  match o with
  | none => true
  | some x => decide (nd < x)

/-- Neighbor expansion (lines 378-382): fold over `graph[node]`, updating
`dist_dict` in place and collecting the pushed heap entries in order. -/
def expand (graph : ℕ → List (ℕ × ℚ)) (maxDistM d : ℚ) (node : ℕ)
    (dist : List (ℕ × ℚ)) : List (ℕ × ℚ) × List (ℚ × ℕ) :=
  (graph node).foldl
    (fun st p =>
      if ltGetD (d + p.2) (alookup st.1 p.1) = true ∧ d + p.2 ≤ maxDistM then
        (aupdate st.1 p.1 (d + p.2), st.2 ++ [(d + p.2, p.1)])
      else st)
    (dist, [])

/-- One per-source run of the `while heap` loop (lines 356-382), indexed by
fuel; the theorems about complete runs hold for all sufficiently large fuel.
Branches in source order: distance bound break (358-359), stale entry skip
(360-361), record-and-stop at a foreign anchor (363-376), expansion. -/
def dijkstraLoop (graph : ℕ → List (ℕ × ℚ)) (hba : ℕ → List ℕ)
    (anchorSrc hutSource : ℕ) (maxDistM : ℚ) :
    Nat → List (ℕ × ℚ) → List (ℚ × ℕ) → Table → Table
  | 0, _, _, best => best
  | fuel + 1, dist, heap, best =>
    match popMin heap with
    | none => best
    | some ((d, node), rest) =>
      if maxDistM < d then best
      else if alookup dist node ≠ some d then
        dijkstraLoop graph hba anchorSrc hutSource maxDistM fuel dist rest best
      else if hba node ≠ [] ∧ node ≠ anchorSrc then
        dijkstraLoop graph hba anchorSrc hutSource maxDistM fuel dist rest
          (recordBest hba hutSource (d / 1000) node best)
      else
        let p := expand graph maxDistM d node dist
        dijkstraLoop graph hba anchorSrc hutSource maxDistM fuel p.1
          (rest ++ p.2) best

/-- `sorted()` on hut ids, as insertion sort. -/
def insertSorted (x : ℕ) : List ℕ → List ℕ
  | [] => [x]
  | y :: ys => if x ≤ y then x :: y :: ys else y :: insertSorted x ys

/-- `hut_ids_with_anchor = sorted(anchor_by_hut.keys())` (line 342). -/
def sortKeys (l : List ℕ) : List ℕ := l.foldr insertSorted []

/-- The raw `best_dist_for_pair` accumulated over all per-source searches
(lines 345-382): each anchored hut in sorted order runs one search starting
from `dist_dict = {anchor: 0.0}`, `heap = [(0.0, anchor)]`. -/
def rawBest (graph : ℕ → List (ℕ × ℚ)) (hba : ℕ → List ℕ)
    (anchorByHut : List (ℕ × ℕ)) (maxDistM : ℚ) (fuel : Nat) : Table :=
  (sortKeys (anchorByHut.map Prod.fst)).foldl
    (fun best hutSource =>
      match alookup anchorByHut hutSource with
      | none => best
      | some anchorSrc =>
        dijkstraLoop graph hba anchorSrc hutSource maxDistM fuel
          [(anchorSrc, 0)] [(0, anchorSrc)] best)
    []

/-- `build_hut_graph` (lines 337-393): the raw search table, pruned at
`epsilon = 0.05`, then flattened to the `(a, b, d_km)` edge list. -/
def buildHutGraphEdges (graph : ℕ → List (ℕ × ℚ)) (hba : ℕ → List ℕ)
    (anchorByHut : List (ℕ × ℕ)) (maxDistKm : ℚ) (fuel : Nat) :
    List (ℕ × ℕ × ℚ) :=
  (pruneRedundantEdges (rawBest graph hba anchorByHut (maxDistKm * 1000) fuel)
    (1/20)).map fun e => (e.1.1, e.1.2, e.2)

/-! ### Ghost trace of recording events

The control flow of the search (`dist_dict`, `heap`) never reads
`best_dist_for_pair`, so the accumulated table is exactly the fold of the
keep-minimum update over the stream of `(pair, d_km)` recording events; the
trace below mirrors `dijkstraLoop` step for step and collects that stream. -/

/-- The `(pair, d_km)` events recorded at one popped anchor node. -/
def recordEvents (hba : ℕ → List ℕ) (hutSource : ℕ) (dkm : ℚ) (node : ℕ) :
    List ((ℕ × ℕ) × ℚ) :=
  ((hba node).filter fun tgt => decide (tgt ≠ hutSource)).map
    fun tgt => (pairKey hutSource tgt, dkm)

/-- Fold of the keep-minimum update over an event stream. -/
def applyEvents (best : Table) (evs : List ((ℕ × ℕ) × ℚ)) : Table :=
  evs.foldl (fun bb e => updateMin bb e.1 e.2) best

/-- Event stream of one per-source search (mirrors `dijkstraLoop`). -/
def dijkstraTrace (graph : ℕ → List (ℕ × ℚ)) (hba : ℕ → List ℕ)
    (anchorSrc hutSource : ℕ) (maxDistM : ℚ) :
    Nat → List (ℕ × ℚ) → List (ℚ × ℕ) → List ((ℕ × ℕ) × ℚ)
  | 0, _, _ => []
  | fuel + 1, dist, heap =>
    match popMin heap with
    | none => []
    | some ((d, node), rest) =>
      if maxDistM < d then []
      else if alookup dist node ≠ some d then
        dijkstraTrace graph hba anchorSrc hutSource maxDistM fuel dist rest
      else if hba node ≠ [] ∧ node ≠ anchorSrc then
        recordEvents hba hutSource (d / 1000) node ++
          dijkstraTrace graph hba anchorSrc hutSource maxDistM fuel dist rest
      else
        let p := expand graph maxDistM d node dist
        dijkstraTrace graph hba anchorSrc hutSource maxDistM fuel p.1
          (rest ++ p.2)

/-- Event stream of the whole engine run (mirrors `rawBest`). -/
def engineTrace (graph : ℕ → List (ℕ × ℚ)) (hba : ℕ → List ℕ)
    (anchorByHut : List (ℕ × ℕ)) (maxDistM : ℚ) (fuel : Nat) :
    List ((ℕ × ℕ) × ℚ) :=
  (sortKeys (anchorByHut.map Prod.fst)).foldl
    (fun acc hutSource =>
      match alookup anchorByHut hutSource with
      | none => acc
      | some anchorSrc =>
        acc ++ dijkstraTrace graph hba anchorSrc hutSource maxDistM fuel
          [(anchorSrc, 0)] [(0, anchorSrc)])
    []

theorem alookup_updateMin_self (bb : Table) (k : ℕ × ℕ) (v : ℚ) :
    alookup (updateMin bb k v) k =
      some (match alookup bb k with
            | none => v
            | some old => if v < old then v else old) := by
  rw [updateMin]
  cases h : alookup bb k with
  | none => exact alookup_aupdate_self bb k v
  | some old =>
    dsimp only
    by_cases hlt : v < old
    · rw [if_pos hlt]
      rw [if_pos hlt]
      exact alookup_aupdate_self bb k v
    · rw [if_neg hlt, if_neg hlt, h]

theorem alookup_updateMin_ne (bb : Table) {k k' : ℕ × ℕ} (v : ℚ)
    (hne : k' ≠ k) : alookup (updateMin bb k v) k' = alookup bb k' := by
  rw [updateMin]
  cases alookup bb k with
  | none => exact alookup_aupdate_ne bb v hne
  | some old =>
    dsimp only
    by_cases hlt : v < old
    · rw [if_pos hlt]
      exact alookup_aupdate_ne bb v hne
    · rw [if_neg hlt]

theorem updateMin_map_fst_nodup {bb : Table} (k : ℕ × ℕ) (v : ℚ)
    (hnd : (bb.map Prod.fst).Nodup) : ((updateMin bb k v).map Prod.fst).Nodup := by
  rw [updateMin]
  cases alookup bb k with
  | none => exact aupdate_map_fst_nodup k v hnd
  | some old =>
    dsimp only
    by_cases hlt : v < old
    · rw [if_pos hlt]
      exact aupdate_map_fst_nodup k v hnd
    · rw [if_neg hlt]
      exact hnd

theorem pairKey_eq_pairKey {a b c d : ℕ} (h : pairKey a b = pairKey c d) :
    (a = c ∧ b = d) ∨ (a = d ∧ b = c) := by
  simp only [pairKey, Prod.mk.injEq, Nat.min_def, Nat.max_def] at h
  split_ifs at h <;> omega

theorem applyEvents_append (b : Table) (e₁ e₂ : List ((ℕ × ℕ) × ℚ)) :
    applyEvents b (e₁ ++ e₂) = applyEvents (applyEvents b e₁) e₂ := by
  simp [applyEvents, List.foldl_append]

theorem recordBest_eq_applyEvents (hba : ℕ → List ℕ) (hutSource : ℕ)
    (dkm : ℚ) (node : ℕ) (best : Table) :
    recordBest hba hutSource dkm node best =
      applyEvents best (recordEvents hba hutSource dkm node) := by
  rw [recordBest, recordEvents, applyEvents]
  induction hba node generalizing best with
  | nil => simp
  | cons t rest ih =>
    by_cases ht : t = hutSource
    · rw [List.foldl_cons, if_pos ht, List.filter_cons,
        if_neg (by simp [ht]), ih]
    · rw [List.foldl_cons, if_neg ht, List.filter_cons,
        if_pos (by simp [ht]), List.map_cons, List.foldl_cons, ih]

theorem dijkstraLoop_eq_applyEvents (graph : ℕ → List (ℕ × ℚ))
    (hba : ℕ → List ℕ) (anchorSrc hutSource : ℕ) (maxDistM : ℚ) :
    ∀ (fuel : Nat) (dist : List (ℕ × ℚ)) (heap : List (ℚ × ℕ)) (best : Table),
      dijkstraLoop graph hba anchorSrc hutSource maxDistM fuel dist heap best =
        applyEvents best
          (dijkstraTrace graph hba anchorSrc hutSource maxDistM fuel dist heap) := by
  intro fuel
  induction fuel with
  | zero => intro dist heap best; rfl
  | succ fuel ih =>
    intro dist heap best
    rw [dijkstraLoop, dijkstraTrace]
    cases hpop : popMin heap with
    | none => rfl
    | some pr =>
      obtain ⟨⟨d, node⟩, rest⟩ := pr
      dsimp only
      by_cases hmax : maxDistM < d
      · rw [if_pos hmax, if_pos hmax]
        rfl
      · rw [if_neg hmax, if_neg hmax]
        by_cases hstale : alookup dist node ≠ some d
        · rw [if_pos hstale, if_pos hstale, ih]
        · rw [if_neg hstale, if_neg hstale]
          by_cases hrec : hba node ≠ [] ∧ node ≠ anchorSrc
          · rw [if_pos hrec, if_pos hrec, ih, applyEvents_append,
              recordBest_eq_applyEvents]
          · rw [if_neg hrec, if_neg hrec, ih]

theorem rawBest_eq_applyEvents (graph : ℕ → List (ℕ × ℚ)) (hba : ℕ → List ℕ)
    (anchorByHut : List (ℕ × ℕ)) (maxDistM : ℚ) (fuel : Nat) :
    rawBest graph hba anchorByHut maxDistM fuel =
      applyEvents [] (engineTrace graph hba anchorByHut maxDistM fuel) := by
  rw [rawBest, engineTrace]
  generalize sortKeys (anchorByHut.map Prod.fst) = srcs
  have haux : ∀ (l : List ℕ) (best : Table) (acc : List ((ℕ × ℕ) × ℚ)),
      best = applyEvents [] acc →
      l.foldl
        (fun best hutSource =>
          match alookup anchorByHut hutSource with
          | none => best
          | some anchorSrc =>
            dijkstraLoop graph hba anchorSrc hutSource maxDistM fuel
              [(anchorSrc, 0)] [(0, anchorSrc)] best) best =
      applyEvents []
        (l.foldl
          (fun acc hutSource =>
            match alookup anchorByHut hutSource with
            | none => acc
            | some anchorSrc =>
              acc ++ dijkstraTrace graph hba anchorSrc hutSource maxDistM fuel
                [(anchorSrc, 0)] [(0, anchorSrc)]) acc) := by
    intro l
    induction l with
    | nil => intro best acc h; simpa using h
    | cons s srcs ih =>
      intro best acc h
      rw [List.foldl_cons, List.foldl_cons]
      cases hsrc : alookup anchorByHut s with
      | none => exact ih best acc h
      | some anchorSrc =>
        dsimp only
        apply ih
        rw [h, dijkstraLoop_eq_applyEvents, applyEvents_append]
  exact haux srcs [] [] rfl

theorem mem_recordEvents {hba : ℕ → List ℕ} {hutSource : ℕ} {dkm : ℚ}
    {node : ℕ} {k : ℕ × ℕ} {v : ℚ}
    (h : (k, v) ∈ recordEvents hba hutSource dkm node) :
    ∃ tgt, tgt ∈ hba node ∧ tgt ≠ hutSource ∧ k = pairKey hutSource tgt ∧ v = dkm := by
  rw [recordEvents] at h
  rcases List.mem_map.mp h with ⟨tgt, htgt, heq⟩
  have h1 := List.mem_filter.mp htgt
  refine ⟨tgt, h1.1, by simpa using h1.2, ?_, ?_⟩
  · exact (congrArg Prod.fst heq).symm
  · exact (congrArg Prod.snd heq).symm

theorem mem_dijkstraTrace (graph : ℕ → List (ℕ × ℚ)) (hba : ℕ → List ℕ)
    (anchorSrc hutSource : ℕ) (maxDistM : ℚ) :
    ∀ (fuel : Nat) (dist : List (ℕ × ℚ)) (heap : List (ℚ × ℕ)) {k : ℕ × ℕ} {v : ℚ},
      (k, v) ∈ dijkstraTrace graph hba anchorSrc hutSource maxDistM fuel dist heap →
      ∃ node tgt, tgt ∈ hba node ∧ tgt ≠ hutSource ∧ node ≠ anchorSrc ∧
        k = pairKey hutSource tgt := by
  intro fuel
  induction fuel with
  | zero =>
    intro dist heap k v h
    rw [dijkstraTrace] at h
    simp at h
  | succ fuel ih =>
    intro dist heap k v h
    rw [dijkstraTrace] at h
    cases hpop : popMin heap with
    | none => rw [hpop] at h; simp at h
    | some pr =>
      obtain ⟨⟨d, node⟩, rest⟩ := pr
      rw [hpop] at h
      dsimp only at h
      by_cases hmax : maxDistM < d
      · rw [if_pos hmax] at h
        simp at h
      · rw [if_neg hmax] at h
        by_cases hstale : alookup dist node ≠ some d
        · rw [if_pos hstale] at h
          exact ih _ _ h
        · rw [if_neg hstale] at h
          by_cases hrec : hba node ≠ [] ∧ node ≠ anchorSrc
          · rw [if_pos hrec] at h
            rcases List.mem_append.mp h with h' | h'
            · rcases mem_recordEvents h' with ⟨tgt, h1, h2, h3, -⟩
              exact ⟨node, tgt, h1, h2, hrec.2, h3⟩
            · exact ih _ _ h'
          · rw [if_neg hrec] at h
            exact ih _ _ h

theorem mem_engineTrace {graph : ℕ → List (ℕ × ℚ)} {hba : ℕ → List ℕ}
    {anchorByHut : List (ℕ × ℕ)} {maxDistM : ℚ} {fuel : Nat} {k : ℕ × ℕ} {v : ℚ}
    (h : (k, v) ∈ engineTrace graph hba anchorByHut maxDistM fuel) :
    ∃ hutSource anchorSrc node tgt,
      alookup anchorByHut hutSource = some anchorSrc ∧
      tgt ∈ hba node ∧ tgt ≠ hutSource ∧ node ≠ anchorSrc ∧
      k = pairKey hutSource tgt := by
  rw [engineTrace] at h
  have haux : ∀ (l : List ℕ) (acc : List ((ℕ × ℕ) × ℚ)),
      (k, v) ∈ l.foldl
        (fun acc hutSource =>
          match alookup anchorByHut hutSource with
          | none => acc
          | some anchorSrc =>
            acc ++ dijkstraTrace graph hba anchorSrc hutSource maxDistM fuel
              [(anchorSrc, 0)] [(0, anchorSrc)]) acc →
      (k, v) ∈ acc ∨ ∃ hutSource anchorSrc,
        alookup anchorByHut hutSource = some anchorSrc ∧
        (k, v) ∈ dijkstraTrace graph hba anchorSrc hutSource maxDistM fuel
          [(anchorSrc, 0)] [(0, anchorSrc)] := by
    intro l
    induction l with
    | nil => intro acc h'; exact Or.inl h'
    | cons s srcs ih =>
      intro acc h'
      rw [List.foldl_cons] at h'
      cases hsrc : alookup anchorByHut s with
      | none =>
        rw [hsrc] at h'
        exact ih acc h'
      | some anchorSrc =>
        rw [hsrc] at h'
        dsimp only at h'
        rcases ih _ h' with hin | hex
        · rcases List.mem_append.mp hin with h'' | h''
          · exact Or.inl h''
          · exact Or.inr ⟨s, anchorSrc, hsrc, h''⟩
        · exact Or.inr hex
  rcases haux _ [] h with h' | ⟨hs, as, hlk, hmem⟩
  · simp at h'
  · rcases mem_dijkstraTrace graph hba as hs maxDistM fuel _ _ hmem with
      ⟨node, tgt, h1, h2, h3, h4⟩
    exact ⟨hs, as, node, tgt, hlk, h1, h2, h3, h4⟩

theorem applyEvents_cons (b : Table) (e : (ℕ × ℕ) × ℚ)
    (evs : List ((ℕ × ℕ) × ℚ)) :
    applyEvents b (e :: evs) = applyEvents (updateMin b e.1 e.2) evs := rfl

theorem alookup_applyEvents {evs : List ((ℕ × ℕ) × ℚ)} :
    ∀ {b : Table} {k : ℕ × ℕ} {d : ℚ},
      alookup (applyEvents b evs) k = some d →
      (alookup b k = some d ∨ (k, d) ∈ evs) ∧
      (∀ v, (k, v) ∈ evs → d ≤ v) ∧
      (∀ v, alookup b k = some v → d ≤ v) := by
  induction evs with
  | nil =>
    intro b k d h
    have h' : alookup b k = some d := h
    refine ⟨Or.inl h', by simp, fun v hv => ?_⟩
    rw [h'] at hv
    exact le_of_eq (Option.some.inj hv)
  | cons e evs ih =>
    obtain ⟨ek, ev⟩ := e
    intro b k d h
    rw [applyEvents_cons] at h
    obtain ⟨hsrc, hlb, hblb⟩ := ih h
    by_cases hk : k = ek
    · subst hk
      cases hb : alookup b k with
      | none =>
        have hu : alookup (updateMin b k ev) k = some ev := by
          rw [alookup_updateMin_self, hb]
        refine ⟨?_, ?_, ?_⟩
        · rcases hsrc with h1 | h1
          · rw [hu] at h1
            have hd : d = ev := (Option.some.inj h1).symm
            rw [hd]
            exact Or.inr (List.mem_cons_self _ _)
          · exact Or.inr (List.mem_cons_of_mem _ h1)
        · intro v hv
          rcases List.mem_cons.mp hv with he | he
          · have hv2 : v = ev := congrArg Prod.snd he
            rw [hv2]
            exact hblb ev hu
          · exact hlb v he
        · intro v hv
          exact Option.noConfusion hv
      | some old =>
        have hu : alookup (updateMin b k ev) k =
            some (if ev < old then ev else old) := by
          rw [alookup_updateMin_self, hb]
        have humin : (if ev < old then ev else old) ≤ ev ∧
            (if ev < old then ev else old) ≤ old := by
          by_cases hlt : ev < old
          · rw [if_pos hlt]
            exact ⟨le_refl _, le_of_lt hlt⟩
          · rw [if_neg hlt]
            exact ⟨le_of_not_lt hlt, le_refl _⟩
        refine ⟨?_, ?_, ?_⟩
        · rcases hsrc with h1 | h1
          · rw [hu] at h1
            have hd : d = if ev < old then ev else old :=
              (Option.some.inj h1).symm
            by_cases hlt : ev < old
            · rw [if_pos hlt] at hd
              rw [hd]
              exact Or.inr (List.mem_cons_self _ _)
            · rw [if_neg hlt] at hd
              left
              rw [hd]
          · exact Or.inr (List.mem_cons_of_mem _ h1)
        · intro v hv
          rcases List.mem_cons.mp hv with he | he
          · have hv2 : v = ev := congrArg Prod.snd he
            rw [hv2]
            exact le_trans (hblb _ hu) humin.1
          · exact hlb v he
        · intro v hv
          have hvold : old = v := Option.some.inj hv
          rw [← hvold]
          exact le_trans (hblb _ hu) humin.2
    · have hne : alookup (updateMin b ek ev) k = alookup b k :=
        alookup_updateMin_ne b ev hk
      refine ⟨?_, ?_, ?_⟩
      · rcases hsrc with h1 | h1
        · rw [hne] at h1
          exact Or.inl h1
        · exact Or.inr (List.mem_cons_of_mem _ h1)
      · intro v hv
        rcases List.mem_cons.mp hv with he | he
        · exact absurd (congrArg Prod.fst he) hk
        · exact hlb v he
      · intro v hv
        rw [← hne] at hv
        exact hblb v hv

theorem applyEvents_map_fst_nodup :
    ∀ (evs : List ((ℕ × ℕ) × ℚ)) (b : Table),
      (b.map Prod.fst).Nodup → ((applyEvents b evs).map Prod.fst).Nodup := by
  intro evs
  induction evs with
  | nil => intro b h; exact h
  | cons e evs ih =>
    intro b h
    rw [applyEvents_cons]
    exact ih _ (updateMin_map_fst_nodup e.1 e.2 h)

theorem pairKey_fst_lt_snd {a b : ℕ} (h : a ≠ b) :
    (pairKey a b).1 < (pairKey a b).2 := by
  simp only [pairKey, Nat.min_def, Nat.max_def]
  split_ifs <;> omega

/-- C9: the raw edge table of the engine (before pruning) has at most one
entry per unordered pair; every entry joins two distinct hut identifiers
(smaller id first, so never a hut to itself); and the stored distance is the
minimum over all cumulative distances the searches ever record for that pair
(the events of the ghost trace, one per hut discovered at a popped anchor,
across all per-source runs). -/
theorem c9_raw_edge_set_invariants (graph : ℕ → List (ℕ × ℚ))
    (hba : ℕ → List ℕ) (anchorByHut : List (ℕ × ℕ)) (maxDistM : ℚ)
    (fuel : Nat) :
    ((rawBest graph hba anchorByHut maxDistM fuel).map Prod.fst).Nodup ∧
    ∀ k d, alookup (rawBest graph hba anchorByHut maxDistM fuel) k = some d →
      k.1 < k.2 ∧
      (k, d) ∈ engineTrace graph hba anchorByHut maxDistM fuel ∧
      ∀ v, (k, v) ∈ engineTrace graph hba anchorByHut maxDistM fuel → d ≤ v := by
  constructor
  · rw [rawBest_eq_applyEvents]
    exact applyEvents_map_fst_nodup _ [] (by simp)
  · intro k d h
    rw [rawBest_eq_applyEvents] at h
    obtain ⟨hsrc, hlb, -⟩ := alookup_applyEvents h
    have hmem : (k, d) ∈ engineTrace graph hba anchorByHut maxDistM fuel := by
      rcases hsrc with h1 | h1
      · exact Option.noConfusion h1
      · exact h1
    refine ⟨?_, hmem, hlb⟩
    rcases mem_engineTrace hmem with ⟨hs, as, node, tgt, -, -, hne, -, hk⟩
    rw [hk]
    exact pairKey_fst_lt_snd hne.symm

/-- Two huts `1`, `2` anchored at trail nodes `10`, `20` joined by a 5 m
segment: a minimal engine input on which the searches record a pair. -/
def exGraph : ℕ → List (ℕ × ℚ) := fun n =>
  if n = 10 then [(20, 5)] else if n = 20 then [(10, 5)] else []

/-- Reverse anchor index of the two-hut instance. -/
def exHba : ℕ → List ℕ := fun n =>
  if n = 10 then [1] else if n = 20 then [2] else []

/-- `anchor_by_hut` of the two-hut instance. -/
def exAnchors : List (ℕ × ℕ) := [(1, 10), (2, 20)]

theorem exRawBest_eval :
    alookup (rawBest exGraph exHba exAnchors 40000 3) (1, 2) = some (1/200) := by
  norm_num [rawBest, sortKeys, insertSorted, exAnchors, exGraph, exHba, alookup,
    dijkstraLoop, popMin, expand, ltGetD, recordBest, updateMin, aupdate, pairKey]

/-- Witness for C9 at the two-hut instance: the raw table holds the pair
`(1, 2)` at `5/1000` km, which is an observed recording and a lower bound on
all observed recordings. -/
theorem c9_witness :
    ((1, 2) : ℕ × ℕ).1 < ((1, 2) : ℕ × ℕ).2 ∧
    (((1, 2) : ℕ × ℕ), (1/200 : ℚ)) ∈ engineTrace exGraph exHba exAnchors 40000 3 ∧
    ∀ v, (((1, 2) : ℕ × ℕ), v) ∈ engineTrace exGraph exHba exAnchors 40000 3 →
      (1/200 : ℚ) ≤ v :=
  (c9_raw_edge_set_invariants exGraph exHba exAnchors 40000 3).2 (1, 2) (1/200)
    exRawBest_eval

/-- C6: two distinct huts co-anchored at the same trail node (neither hut id
being that node itself) are never joined by the engine: no search records
the pair (the source's own anchor node never triggers the recording branch,
and no other node anchors either hut), so the raw table holds no entry for
the pair and the emitted edge list contains no such edge.  `hcons` states
that `huts_by_anchor` is the reverse index of `anchor_by_hut`, which is how
`compute_hut_anchors` builds the two maps. -/
theorem c6_co_anchored_not_linked (graph : ℕ → List (ℕ × ℚ))
    (hba : ℕ → List ℕ) (anchorByHut : List (ℕ × ℕ)) (maxDistKm : ℚ)
    (fuel : Nat) (h1 h2 n : ℕ)
    (hcons : ∀ tgt m, tgt ∈ hba m → alookup anchorByHut tgt = some m)
    (_hne : h1 ≠ h2) (ha1 : alookup anchorByHut h1 = some n)
    (ha2 : alookup anchorByHut h2 = some n) (_hn1 : h1 ≠ n) (_hn2 : h2 ≠ n) :
    (∀ v, (pairKey h1 h2, v) ∉
      engineTrace graph hba anchorByHut (maxDistKm * 1000) fuel) ∧
    alookup (rawBest graph hba anchorByHut (maxDistKm * 1000) fuel)
      (pairKey h1 h2) = none ∧
    ∀ d, ((pairKey h1 h2).1, (pairKey h1 h2).2, d) ∉
      buildHutGraphEdges graph hba anchorByHut maxDistKm fuel := by
  have htrace : ∀ v, (pairKey h1 h2, v) ∉
      engineTrace graph hba anchorByHut (maxDistKm * 1000) fuel := by
    intro v hv
    rcases mem_engineTrace hv with ⟨hs, as, node, tgt, hlk, htgt, htne, hnode, hk⟩
    rcases pairKey_eq_pairKey hk with ⟨e1, e2⟩ | ⟨e1, e2⟩
    · subst e1
      subst e2
      have has : as = n := Option.some.inj (hlk.symm.trans ha1)
      have hnoden : node = n := Option.some.inj ((hcons _ _ htgt).symm.trans ha2)
      exact hnode (hnoden.trans has.symm)
    · subst e1
      subst e2
      have has : as = n := Option.some.inj (hlk.symm.trans ha2)
      have hnoden : node = n := Option.some.inj ((hcons _ _ htgt).symm.trans ha1)
      exact hnode (hnoden.trans has.symm)
  have hlook : alookup (rawBest graph hba anchorByHut (maxDistKm * 1000) fuel)
      (pairKey h1 h2) = none := by
    cases h : alookup (rawBest graph hba anchorByHut (maxDistKm * 1000) fuel)
        (pairKey h1 h2) with
    | none => rfl
    | some d =>
      exfalso
      rw [rawBest_eq_applyEvents] at h
      obtain ⟨hsrc, -, -⟩ := alookup_applyEvents h
      rcases hsrc with hx | hx
      · exact Option.noConfusion hx
      · exact htrace d hx
  refine ⟨htrace, hlook, ?_⟩
  intro d hmem
  rw [buildHutGraphEdges] at hmem
  rcases List.mem_map.mp hmem with ⟨e, he, heq⟩
  simp only [Prod.mk.injEq] at heq
  have hekey : e.1 = pairKey h1 h2 := Prod.ext_iff.mpr ⟨heq.1, heq.2.1⟩
  have heraw : e ∈ rawBest graph hba anchorByHut (maxDistKm * 1000) fuel :=
    (List.mem_filter.mp he).1
  have hpm : (pairKey h1 h2, e.2) ∈
      rawBest graph hba anchorByHut (maxDistKm * 1000) fuel := by
    rw [← hekey, Prod.mk.eta]
    exact heraw
  exact (alookup_eq_none_iff.mp hlook e.2) hpm

/-- Graph of the co-anchoring instance: no trail segments at all. -/
def exGraph2 : ℕ → List (ℕ × ℚ) := fun _ => []

/-- Reverse anchor index: huts `1` and `2` both anchor at node `5`. -/
def exHba2 : ℕ → List ℕ := fun m => if m = 5 then [1, 2] else []

/-- `anchor_by_hut` of the co-anchoring instance. -/
def exAnchors2 : List (ℕ × ℕ) := [(1, 5), (2, 5)]

/-- Witness for C6 at the co-anchoring instance. -/
theorem c6_witness :
    (∀ v, (pairKey 1 2, v) ∉ engineTrace exGraph2 exHba2 exAnchors2 (40 * 1000) 5) ∧
    alookup (rawBest exGraph2 exHba2 exAnchors2 (40 * 1000) 5) (pairKey 1 2) = none ∧
    ∀ d, ((pairKey 1 2).1, (pairKey 1 2).2, d) ∉
      buildHutGraphEdges exGraph2 exHba2 exAnchors2 40 5 :=
  c6_co_anchored_not_linked exGraph2 exHba2 exAnchors2 40 5 1 2 5
    (by
      intro tgt m hm
      by_cases h5 : m = 5
      · subst h5
        rw [exHba2] at hm
        rw [if_pos rfl] at hm
        rcases List.mem_cons.mp hm with h | h
        · subst h
          rfl
        · rcases List.mem_cons.mp h with h' | h'
          · subst h'
            rfl
          · simp at h'
      · rw [exHba2, if_neg h5] at hm
        simp at hm)
    (by decide) rfl rfl (by decide) (by decide)

theorem alookup_foldl_record_stable (hs : ℕ) (dkm : ℚ) :
    ∀ (l : List ℕ) (bb : Table) (k : ℕ × ℕ) (v : ℚ),
      alookup bb k = some v → v ≤ dkm →
      alookup (l.foldl
        (fun bb t => if t = hs then bb else updateMin bb (pairKey hs t) dkm)
        bb) k = some v := by
  intro l
  induction l with
  | nil => intro bb k v hv _; exact hv
  | cons t rest ih =>
    intro bb k v hv hvd
    rw [List.foldl_cons]
    by_cases ht : t = hs
    · rw [if_pos ht]
      exact ih bb k v hv hvd
    · rw [if_neg ht]
      refine ih _ k v ?_ hvd
      by_cases hk : k = pairKey hs t
      · subst hk
        rw [alookup_updateMin_self, hv]
        dsimp only
        rw [if_neg (not_lt.mpr hvd)]
      · rw [alookup_updateMin_ne _ _ hk]
        exact hv

theorem recordBest_records (hba : ℕ → List ℕ) (hs : ℕ) (dkm : ℚ) (node : ℕ)
    (best : Table) :
    ∀ tgt ∈ hba node, tgt ≠ hs →
      ∃ v, alookup (recordBest hba hs dkm node best) (pairKey hs tgt) = some v ∧
        v ≤ dkm ∧ (v = dkm ∨ alookup best (pairKey hs tgt) = some v) := by
  rw [recordBest]
  generalize hba node = l
  induction l generalizing best with
  | nil =>
    intro tgt h
    simp at h
  | cons t rest ih =>
    intro tgt hmem htne
    rw [List.foldl_cons]
    rcases List.mem_cons.mp hmem with heq | hmem'
    · subst heq
      rw [if_neg htne]
      cases hb : alookup best (pairKey hs tgt) with
      | none =>
        refine ⟨dkm, ?_, le_refl _, Or.inl rfl⟩
        refine alookup_foldl_record_stable hs dkm rest _ _ _ ?_ (le_refl _)
        rw [alookup_updateMin_self, hb]
      | some old =>
        by_cases hlt : dkm < old
        · refine ⟨dkm, ?_, le_refl _, Or.inl rfl⟩
          refine alookup_foldl_record_stable hs dkm rest _ _ _ ?_ (le_refl _)
          rw [alookup_updateMin_self, hb]
          dsimp only
          rw [if_pos hlt]
        · refine ⟨old, ?_, le_of_not_lt hlt, Or.inr rfl⟩
          refine alookup_foldl_record_stable hs dkm rest _ _ _ ?_ (le_of_not_lt hlt)
          rw [alookup_updateMin_self, hb]
          dsimp only
          rw [if_neg hlt]
    · by_cases ht : t = hs
      · rw [if_pos ht]
        exact ih best tgt hmem' htne
      · rw [if_neg ht]
        obtain ⟨v, hvk, hvd, hsrc⟩ :=
          ih (updateMin best (pairKey hs t) dkm) tgt hmem' htne
        refine ⟨v, hvk, hvd, ?_⟩
        rcases hsrc with h | h
        · exact Or.inl h
        · by_cases hkey : pairKey hs tgt = pairKey hs t
          · rw [hkey, alookup_updateMin_self] at h
            cases hb : alookup best (pairKey hs t) with
            | none =>
              rw [hb] at h
              dsimp only at h
              exact Or.inl (Option.some.inj h).symm
            | some old =>
              rw [hb] at h
              dsimp only at h
              by_cases hlt : dkm < old
              · rw [if_pos hlt] at h
                exact Or.inl (Option.some.inj h).symm
              · rw [if_neg hlt] at h
                right
                rw [hkey, hb]
                exact h
          · rw [alookup_updateMin_ne _ _ hkey] at h
            exact Or.inr h

/-- C1: when the search pops a live (non-stale, within-range) node that is
the anchor of huts other than the source, the loop records a candidate edge
between the source and each such hut at the current cumulative distance
(keeping an earlier smaller candidate if one exists) and does not expand
outward from that node: it continues on the remaining heap with `dist_dict`
untouched and no neighbor pushed. -/
theorem c1_anchor_pop_records_and_stops (graph : ℕ → List (ℕ × ℚ))
    (hba : ℕ → List ℕ) (anchorSrc hutSource : ℕ) (maxDistM : ℚ) (fuel : Nat)
    (dist : List (ℕ × ℚ)) (heap rest : List (ℚ × ℕ)) (best : Table)
    (d : ℚ) (node : ℕ)
    (hpop : popMin heap = some ((d, node), rest))
    (hmax : ¬ maxDistM < d)
    (hlive : alookup dist node = some d)
    (hanch : hba node ≠ []) (hother : node ≠ anchorSrc) :
    dijkstraLoop graph hba anchorSrc hutSource maxDistM (fuel + 1) dist heap best =
      dijkstraLoop graph hba anchorSrc hutSource maxDistM fuel dist rest
        (recordBest hba hutSource (d / 1000) node best) ∧
    ∀ tgt ∈ hba node, tgt ≠ hutSource →
      ∃ v, alookup (recordBest hba hutSource (d / 1000) node best)
          (pairKey hutSource tgt) = some v ∧
        v ≤ d / 1000 ∧
        (v = d / 1000 ∨ alookup best (pairKey hutSource tgt) = some v) := by
  constructor
  · rw [dijkstraLoop, hpop]
    dsimp only
    rw [if_neg hmax,
      if_neg (show ¬ alookup dist node ≠ some d from fun hc => hc hlive),
      if_pos ⟨hanch, hother⟩]
  · exact recordBest_records hba hutSource (d / 1000) node best

/-- Witness for C1: a one-element heap whose popped node anchors hut `42`. -/
theorem c1_witness :
    (dijkstraLoop (fun _ => []) (fun m => if m = 7 then [42] else []) 3 9 100
        (0 + 1) [(7, 5)] [(5, 7)] [] =
      dijkstraLoop (fun _ => []) (fun m => if m = 7 then [42] else []) 3 9 100
        0 [(7, 5)] []
        (recordBest (fun m => if m = 7 then [42] else []) 9 (5 / 1000) 7 [])) ∧
    ∀ tgt ∈ (fun m => if m = 7 then [42] else []) 7, tgt ≠ 9 →
      ∃ v, alookup
          (recordBest (fun m => if m = 7 then [42] else []) 9 (5 / 1000) 7 [])
          (pairKey 9 tgt) = some v ∧
        v ≤ 5 / 1000 ∧
        (v = 5 / 1000 ∨ alookup ([] : Table) (pairKey 9 tgt) = some v) :=
  c1_anchor_pop_records_and_stops (fun _ => [])
    (fun m => if m = 7 then [42] else []) 3 9 100 0 [(7, 5)] [(5, 7)] [] []
    5 7 rfl (by norm_num) rfl (by decide) (by decide)

theorem dijkstraLoop_nil_heap (graph : ℕ → List (ℕ × ℚ)) (hba : ℕ → List ℕ)
    (anchorSrc hutSource : ℕ) (maxDistM : ℚ) :
    ∀ (fuel : Nat) (dist : List (ℕ × ℚ)) (best : Table),
      dijkstraLoop graph hba anchorSrc hutSource maxDistM fuel dist [] best =
        best := by
  intro fuel dist best
  cases fuel with
  | zero => rfl
  | succ fuel => rw [dijkstraLoop]; rfl

/-- Node ids and coordinates of the spec's collinear scenario:
`N1(0, 0)`, `N2(0, 0.01)`, `N3(0, 0.02)`. -/
def lineNodes : List (ℕ × OsmNode) :=
  [(1, ⟨0, 0⟩), (2, ⟨0, 1/100⟩), (3, ⟨0, 1/50⟩)]

/-- The single trail way `N1-N2-N3`. -/
def lineWays : List (ℕ × List ℕ) := [(100, [1, 2, 3])]

/-- Trail graph of the scenario built by the graph builder, with `w` the
metric value of a hop: both hops span 0.01° of longitude on the equator, so
the haversine gives both the same length, about 1111.95 m. -/
def lineGraph (w : ℚ) : ℕ → List (ℕ × ℚ) :=
  buildGraphAdj (fun _ _ _ _ => w) lineNodes lineWays

/-- Huts `H1, H2, H3` reuse the node ids, so each anchors to itself. -/
def lineAnchors : List (ℕ × ℕ) := [(1, 1), (2, 2), (3, 3)]

/-- Reverse anchor index of the collinear scenario. -/
def lineHba : ℕ → List ℕ := fun n =>
  if n = 1 then [1] else if n = 2 then [2] else if n = 3 then [3] else []

/-- C3: on the three collinear nodes with hop length `w` (~1.11 km), for
every sufficiently large fuel the engine emits exactly the edges `H1-H2`
and `H2-H3`, each one hop long, and no `H1-H3` edge: the searches stop at
the middle hut's anchor. -/
theorem c3_collinear_scenario (w : ℚ) (m : Nat)
    (_hw1 : 1110 ≤ w) (hw2 : w ≤ 1113) :
    buildHutGraphEdges (lineGraph w) lineHba lineAnchors 40 (m + 3) =
      [(1, 2, w / 1000), (2, 3, w / 1000)] := by
  have hA : ¬ (40000 : ℚ) < w := by linarith
  have hC : w ≤ (40000 : ℚ) := by linarith
  have g1 : lineGraph w 1 = [(2, w)] := by
    norm_num [lineGraph, buildGraphAdj, buildGraphEntries, wayEntries,
      lineNodes, lineWays, alookup, List.zip_cons_cons, List.filterMap_cons]
  have g2 : lineGraph w 2 = [(1, w), (3, w)] := by
    norm_num [lineGraph, buildGraphAdj, buildGraphEntries, wayEntries,
      lineNodes, lineWays, alookup, List.zip_cons_cons, List.filterMap_cons]
  have g3 : lineGraph w 3 = [(2, w)] := by
    norm_num [lineGraph, buildGraphAdj, buildGraphEntries, wayEntries,
      lineNodes, lineWays, alookup, List.zip_cons_cons, List.filterMap_cons]
  norm_num [buildHutGraphEdges, rawBest, sortKeys, insertSorted, lineAnchors,
    lineHba, alookup, dijkstraLoop, dijkstraLoop_nil_heap, popMin, expand,
    ltGetD, recordBest, updateMin, aupdate, pairKey, g1, g2, g3,
    pruneRedundantEdges, toRemoveLoop, hasShortcut, hutsOf, distOf, normPair,
    hA, hC]

/-- Witness for C3 at the actual hop length: the haversine length of 0.01°
of longitude on the equator is about 1111.95 m. -/
theorem c3_witness :
    buildHutGraphEdges (lineGraph (111195/100)) lineHba lineAnchors 40 (0 + 3) =
      [(1, 2, (111195/100 : ℚ) / 1000), (2, 3, (111195/100 : ℚ) / 1000)] :=
  c3_collinear_scenario (111195/100) 0 (by norm_num) (by norm_num)
